import Mathlib

/-!
Verification of the TypeScript-skill documentation build pipeline.

The development embeds the pipeline's core algorithms — the markdown
section extractor, the budget-constrained condenser, the reference-file
assembler, and the manifest/drift detector — as executable Lean
definitions, and settles the specification's claims about them as
theorems.

Modelling conventions, used throughout:
- JavaScript strings are Lean `String`s; `split("\n")`, `join("\n")` and
  line counting are embedded as `strLines`, `joinNl`, `countLines`.
- The JavaScript whitespace class `\s` is modelled over its ASCII part
  (space, tab, CR, vertical tab, form feed); the documents processed by
  the pipeline contain no exotic Unicode whitespace.
- File I/O is embedded by passing the filesystem explicitly as a partial
  map `String → Option String` from paths to contents; a read that would
  throw is a `none`.
- The SHA-256 content hash is an explicit parameter `hash : String → String`;
  nothing below assumes anything about it beyond it being a function.
- Regular-expression scans from the source are embedded as character-list
  scanners; where a scanner restarts after a failed match it carries a
  fuel argument bounded by the input length, since each step consumes at
  least one character.
-/

namespace TsSkill

/-! ## String and line utilities -/

/-- ASCII part of the JavaScript whitespace class `\s` (newline included). -/
def isJsWs (c : Char) : Bool :=
  c = ' ' || c = '\t' || c = '\r' || c = '\n' || c = Char.ofNat 11 || c = Char.ofNat 12

/-- ASCII whitespace without the newline, for scans that operate on a
    single already-split line. -/
def isJsWsNoNl (c : Char) : Bool :=
  c = ' ' || c = '\t' || c = '\r' || c = Char.ofNat 11 || c = Char.ofNat 12

/-- Split a character list at every newline, like `s.split("\n")`. -/
def splitNlChars : List Char → List (List Char)
  | [] => [[]]
  | c :: cs =>
    if c = '\n' then [] :: splitNlChars cs
    else
      match splitNlChars cs with
      | [] => [[c]]
      | h :: t => (c :: h) :: t

/-- The lines of a string, exactly `s.split("\n")` of JavaScript. -/
def strLines (s : String) : List String :=
  (splitNlChars s.data).map (fun cs => ⟨cs⟩)

/-- `arr.join("\n")` of JavaScript. -/
def joinNl : List String → String
  | [] => ""
  | [s] => s
  | s :: rest => s ++ "\n" ++ joinNl rest

/-- `s.split("\n").length` of JavaScript, the pipeline's line count. -/
def countLines (s : String) : Nat := (strLines s).length

/-- Keep the first occurrence of every element, like iterating a JS `Set`. -/
def dedupFirstGo (seen : List String) : List String → List String
  | [] => []
  | x :: xs =>
    if x ∈ seen then dedupFirstGo seen xs
    else x :: dedupFirstGo (x :: seen) xs

def dedupFirst (l : List String) : List String := dedupFirstGo [] l

/-! ## Generic character scanners

The regular-expression passes of the source are embedded as left-to-right
character scanners. A scanner that can jump forward on a successful match
carries a fuel argument; fuel equal to the input length always suffices
because every step consumes at least one character, and the definitions are
only ever applied with that fuel. -/

/-- JavaScript word-character class `\w`, that is `[A-Za-z0-9_]`. -/
def isWordChar (c : Char) : Bool := c.isAlpha || c.isDigit || c = '_'

/-- Split a character list at the first occurrence of `pat`, returning the
    part before it and the part after it. -/
def splitFirst (pat : List Char) : List Char → Option (List Char × List Char)
  | [] => none
  | c :: rest =>
    if pat.isPrefixOf (c :: rest) then some ([], (c :: rest).drop pat.length)
    else
      match splitFirst pat rest with
      | some (b, a) => some (c :: b, a)
      | none => none

/-- `s.trim()` of JavaScript (ASCII whitespace model). -/
def jsTrimStr (s : String) : String :=
  ⟨((s.data.dropWhile isJsWs).reverse.dropWhile isJsWs).reverse⟩

/-- Collapse every whitespace run into a single space,
    `replace(/\s+/g, " ")`. The flag records whether the scanner is inside
    a run already emitted. -/
def collapseWsGo : Bool → List Char → List Char
  | _, [] => []
  | inRun, c :: rest =>
    if isJsWs c then
      if inRun then collapseWsGo true rest else ' ' :: collapseWsGo true rest
    else c :: collapseWsGo false rest

/-! ## Markdown extraction (extract.ts) -/

structure CodeBlock where
  lang : String
  content : String
  isTwoslash : Bool
  lines : Nat
deriving DecidableEq, Repr

structure Section where
  heading : String
  level : Nat
  parentHeading : String
  content : String
  codeBlocks : List CodeBlock
deriving DecidableEq, Repr

structure DocFile where
  path : String
  frontmatter : List (String × String)
  sections : List Section
  rawContent : String
deriving DecidableEq, Repr

/-- The opening and closing marker of a fenced code block. -/
def fenceMarker : List Char := "```".data

/-- Heading-line test `line.match(/^(#{1,6})\s+(.+)$/)`, returning the
    level and the heading text. The text is nonempty; when everything after
    the hashes is whitespace, backtracking of `\s+` leaves the final
    whitespace character to `(.+)`. -/
def parseHeadingLine (line : String) : Option (Nat × String) :=
  let cs := line.data
  let n := (cs.takeWhile (fun c => c = '#')).length
  if 1 ≤ n ∧ n ≤ 6 then
    let rest := cs.drop n
    match rest with
    | [] => none
    | c :: _ =>
      if isJsWs c then
        let text := rest.dropWhile isJsWs
        if text ≠ [] then some (n, ⟨text⟩)
        else if 2 ≤ rest.length then some (n, ⟨[rest.getLastD ' ']⟩)
        else none
      else none
  else none

/-- The `lastHeadingAtLevel` scratch table, as a function from levels to
    the most recent heading text recorded there (empty when cleared). -/
def emptyStack : Nat → String := fun _ => ""

/-- Record a heading: `headingStack[level] = text` followed by clearing
    every deeper level. -/
def stackStep (st : Nat → String) (p : Nat × String) : Nat → String :=
  fun i => if i = p.1 then p.2 else if p.1 < i then "" else st i

/-- The scan of `findParentHeading`, from index `i` down to 1. -/
def fphGo : Nat → (Nat → String) → String
  | 0, _ => ""
  | n + 1, st => if st (n + 1) ≠ "" then st (n + 1) else fphGo n st

/-- `findParentHeading` of extract.ts: the nearest non-empty entry strictly
    below `level` in the scratch table. -/
def findParentHeading (level : Nat) (st : Nat → String) : String :=
  fphGo (level - 1) st

/-- Attempt the fence-header part `(\w*)\s*(twoslash)?\n` directly after an
    opening fence, then the lazy body up to the closing fence. Returns the
    parsed block and the remainder of the input after the closing fence.
    Since `twoslash` starts with a non-whitespace character, the optional
    group can only match at the end of the maximal whitespace run;
    otherwise the required newline is matched at the last newline of that
    run, the tail of which then belongs to the block body. -/
def tryFenceBlock (l : List Char) : Option (CodeBlock × List Char) :=
  let langRaw := l.takeWhile isWordChar
  let r1 := l.drop langRaw.length
  let w := r1.takeWhile isJsWs
  let r2 := r1.drop w.length
  let header : Option (Bool × List Char) :=
    if "twoslash\n".data.isPrefixOf r2 then some (true, r2.drop 9)
    else if w.contains '\n' then
      some (false, (w.reverse.takeWhile (fun c => c ≠ '\n')).reverse ++ r2)
    else none
  match header with
  | none => none
  | some (isTs, body) =>
    match splitFirst fenceMarker body with
    | none => none
    | some (code, rest) =>
      some (⟨if langRaw = [] then "text" else ⟨langRaw⟩, ⟨code⟩, isTs,
        (splitNlChars code).length⟩, rest)

/-- The global scan of `extractCodeBlocks` over
    `/\x60\x60\x60(\w*)\s*(twoslash)?\n([\s\S]*?)\x60\x60\x60/g`: at each
    position try a full match, jumping past it on success and advancing one
    character on failure. -/
def extractCodeBlocksGo (fuel : Nat) (l : List Char) : List CodeBlock :=
  match fuel, l with
  | 0, _ => []
  | _, [] => []
  | fuel + 1, c :: rest =>
    if fenceMarker.isPrefixOf (c :: rest) then
      match tryFenceBlock ((c :: rest).drop 3) with
      | some (b, after) => b :: extractCodeBlocksGo fuel after
      | none => extractCodeBlocksGo fuel rest
    else extractCodeBlocksGo fuel rest

/-- `extractCodeBlocks` of extract.ts. -/
def extractCodeBlocks (content : String) : List CodeBlock :=
  extractCodeBlocksGo content.data.length content.data

def buildSection (heading : String) (level : Nat) (parentHeading : String)
    (lines : List String) : Section :=
  let content := joinNl lines
  ⟨heading, level, parentHeading, content, extractCodeBlocks content⟩

/-- Flush the accumulated section, guarded by
    `currentLines.length > 0 || currentHeading`. -/
def flushSection (heading : String) (level : Nat) (st : Nat → String)
    (lines : List String) : List Section :=
  if lines ≠ [] ∨ heading ≠ "" then
    [buildSection heading level (findParentHeading level st) lines]
  else []

/-- The line loop of `splitIntoSections`, carrying the current heading, its
    level, the accumulated body lines and the scratch table. -/
def sectionScan (heading : String) (level : Nat) (acc : List String)
    (st : Nat → String) : List String → List Section
  | [] => flushSection heading level st acc
  | line :: rest =>
    match parseHeadingLine line with
    | some (l, t) =>
      flushSection heading level st acc
        ++ sectionScan t l [] (stackStep st (l, t)) rest
    | none => sectionScan heading level (acc ++ [line]) st rest

/-- `splitIntoSections` of extract.ts. -/
def splitIntoSections (content : String) : List Section :=
  sectionScan "" 0 [] emptyStack (strLines content)

/-- `line.match(/^\/\/\s*@\w/)`, a twoslash directive line. -/
def isDirectiveLine (l : String) : Bool :=
  match l.data with
  | '/' :: '/' :: rest =>
    match rest.dropWhile isJsWs with
    | '@' :: d :: _ => isWordChar d
    | _ => false
  | _ => false

/-- `line.match(/^\/\/\s*\^/)`, a twoslash pointer line. -/
def isPointerLine (l : String) : Bool :=
  match l.data with
  | '/' :: '/' :: rest =>
    match rest.dropWhile isJsWs with
    | '^' :: _ => true
    | _ => false
  | _ => false

/-- The cut-marker test: two slashes, optional whitespace, then the
    literal marker of nine characters dash dash dash cut dash dash dash. -/
def isCutLine (l : String) : Bool :=
  match l.data with
  | '/' :: '/' :: rest => "---cut---".data.isPrefixOf (rest.dropWhile isJsWs)
  | _ => false

/-- `cleanTwoslash` of extract.ts: drop directive, pointer and cut lines,
    rejoin, trim. -/
def cleanTwoslash (code : String) : String :=
  jsTrimStr (joinNl ((strLines code).filter (fun l =>
    ¬ isDirectiveLine l && ¬ isPointerLine l && ¬ isCutLine l)))

/-- One paired-tag removal pass `<name[^>]*>[\s\S]*?</name>`, replacing
    every match with nothing. -/
def tryTagSpan (name : String) (l : List Char) : Option (List Char) :=
  if ('<' :: name.data).isPrefixOf l then
    let r1 := l.drop (name.data.length + 1)
    let attrs := r1.takeWhile (fun c => c ≠ '>')
    match r1.drop attrs.length with
    | '>' :: body =>
      match splitFirst ("</" ++ name ++ ">").data body with
      | some (_, rest) => some rest
      | none => none
    | _ => none
  else none

def stripTagSpanGo (name : String) (fuel : Nat) (l : List Char) : List Char :=
  match fuel, l with
  | 0, l => l
  | _, [] => []
  | fuel + 1, c :: rest =>
    match tryTagSpan name (c :: rest) with
    | some after => stripTagSpanGo name fuel after
    | none => c :: stripTagSpanGo name fuel rest

def stripTagSpan (name : String) (s : String) : String :=
  ⟨stripTagSpanGo name s.data.length s.data⟩

/-- The bare-tag removal pass `<[^>]+>`. -/
def stripAllTagsGo (fuel : Nat) (l : List Char) : List Char :=
  match fuel, l with
  | 0, l => l
  | _, [] => []
  | fuel + 1, c :: rest =>
    if c = '<' then
      let inner := rest.takeWhile (fun d => d ≠ '>')
      match rest.drop inner.length, inner with
      | '>' :: after, _ :: _ => stripAllTagsGo fuel after
      | _, _ => c :: stripAllTagsGo fuel rest
    else c :: stripAllTagsGo fuel rest

/-- The newline collapse `replace(/\n{3,}/g, "\n\n")`. -/
def collapseNl3Go (fuel : Nat) (l : List Char) : List Char :=
  match fuel, l with
  | 0, l => l
  | _, [] => []
  | fuel + 1, c :: rest =>
    if c = '\n' then
      let run := rest.takeWhile (fun d => d = '\n')
      let after := rest.drop run.length
      if 2 ≤ run.length then '\n' :: '\n' :: collapseNl3Go fuel after
      else c :: (run ++ collapseNl3Go fuel after)
    else c :: collapseNl3Go fuel rest

/-- `stripHtml` of extract.ts: remove blockquote, details, div and p
    spans, then every remaining tag, then collapse triple newlines. -/
def stripHtml (content : String) : String :=
  let s1 := stripTagSpan "p" (stripTagSpan "div"
    (stripTagSpan "details" (stripTagSpan "blockquote" content)))
  let s2 : List Char := stripAllTagsGo s1.data.length s1.data
  ⟨collapseNl3Go s2.length s2⟩

/-- The markdown-link replacement `\[([^\]]*)\]\([^)]*\)` → text. -/
def stripLinksGo (fuel : Nat) (l : List Char) : List Char :=
  match fuel, l with
  | 0, l => l
  | _, [] => []
  | fuel + 1, c :: rest =>
    if c = '[' then
      let txt := rest.takeWhile (fun d => d ≠ ']')
      match rest.drop txt.length with
      | ']' :: '(' :: r2 =>
        let url := r2.takeWhile (fun d => d ≠ ')')
        match r2.drop url.length with
        | ')' :: after => txt ++ stripLinksGo fuel after
        | _ => c :: stripLinksGo fuel rest
      | _ => c :: stripLinksGo fuel rest
    else c :: stripLinksGo fuel rest

/-- The bare relative-URL removal `\(\/docs\/[^)]*\)` → nothing. -/
def stripDocsUrlGo (fuel : Nat) (l : List Char) : List Char :=
  match fuel, l with
  | 0, l => l
  | _, [] => []
  | fuel + 1, c :: rest =>
    if "(/docs/".data.isPrefixOf (c :: rest) then
      let r := (c :: rest).drop 7
      let url := r.takeWhile (fun d => d ≠ ')')
      match r.drop url.length with
      | ')' :: after => stripDocsUrlGo fuel after
      | _ => c :: stripDocsUrlGo fuel rest
    else c :: stripDocsUrlGo fuel rest

/-- `stripLinks` of extract.ts. -/
def stripLinks (content : String) : String :=
  let s1 : List Char := stripLinksGo content.data.length content.data
  ⟨stripDocsUrlGo s1.length s1⟩

/-- A frontmatter line `key: value`. -/
def parseKVLine (l : String) : Option (String × String) :=
  match splitFirst [':'] l.data with
  | some (k, v) => some (jsTrimStr ⟨k⟩, jsTrimStr ⟨v⟩)
  | none => none

def splitAtDashesGo (acc : List String) : List String → Option (List String × List String)
  | [] => none
  | l :: rest =>
    if l = "---" then some (acc.reverse, rest)
    else splitAtDashesGo (l :: acc) rest

/-- Frontmatter split, modelling the external `gray-matter` dependency that
    extract.ts calls: a block delimited by a leading `---` line and the
    next `---` line is read as colon-separated string pairs; without such a
    block the content is the whole input. -/
def matter (raw : String) : (List (String × String)) × String :=
  match strLines raw with
  | "---" :: rest =>
    match splitAtDashesGo [] rest with
    | some (fmLines, body) => (fmLines.filterMap parseKVLine, joinNl body)
    | none => ([], raw)
  | _ => ([], raw)

/-- `content.replace(/\r\n/g, "\n")`. -/
def replaceCrlfGo : List Char → List Char
  | [] => []
  | '\r' :: '\n' :: rest => '\n' :: replaceCrlfGo rest
  | c :: rest => c :: replaceCrlfGo rest

def replaceCrlf (s : String) : String := ⟨replaceCrlfGo s.data⟩

/-- `extractDoc` of extract.ts. -/
def extractDoc (filePath : String) (rawMarkdown : String) : DocFile :=
  let fm := matter rawMarkdown
  let content := replaceCrlf fm.2
  ⟨filePath, fm.1, splitIntoSections content, content⟩

/-- `path.replace(/.*\//, "")`, the final path component. -/
def baseName (p : String) : String :=
  ⟨(p.data.reverse.takeWhile (fun c => c ≠ '/')).reverse⟩

/-- `name.replace(/\.md$/, "")`. -/
def dropMdSuffix (p : String) : String :=
  if ".md".data.isSuffixOf p.data then ⟨p.data.take (p.data.length - 3)⟩ else p

/-- A frontmatter field as a string, empty when absent. -/
def fmString (fm : List (String × String)) (k : String) : String :=
  (List.lookup k fm).getD ""

/-- `getTitle` of extract.ts: frontmatter title, else display, else the
    file name without its extension (`||` treats the empty string as
    absent). -/
def getTitle (doc : DocFile) : String :=
  let t := fmString doc.frontmatter "title"
  if t ≠ "" then t
  else
    let d := fmString doc.frontmatter "display"
    if d ≠ "" then d
    else dropMdSuffix (baseName doc.path)

/-! ## Reference reading of parent resolution

The scratch table after a heading sequence, and the parent a section
should get according to the specification: the nearest earlier heading at
a strictly shallower level. (Such a heading is never superseded by an
intervening heading at or above its own level, because any intervening
heading is at least as deep as the section itself.) These definitions are
the specification side of the refinement proved about
`splitIntoSections`. -/

/-- The scratch table produced by recording a heading sequence in order. -/
def stackOf (hs : List (Nat × String)) : Nat → String :=
  hs.foldl stackStep emptyStack

/-- The nearest earlier heading at a strictly shallower level, per the
    specification's wording. -/
def lastShallowerHeading (hs : List (Nat × String)) (level : Nat) : String :=
  ((hs.filter (fun p => p.1 < level)).getLast?.map (fun p => p.2)).getD ""

/-- The `(heading, level, parentHeading)` triples the specification
    assigns to the sections of a document whose headings, in order, are
    the second argument, after earlier headings `hs0`. -/
def specTriples : List (Nat × String) → List (Nat × String) → List (String × Nat × String)
  | _, [] => []
  | hs0, (l, t) :: rest =>
    (t, l, lastShallowerHeading hs0 l) :: specTriples (hs0 ++ [(l, t)]) rest

/-- The five-heading document of the specification's parent-resolution
    test. -/
def c6Example : String :=
  "# A\nintro\n## B\nb text\n### C\nc text\n## D\nd text\n### E\ne text"

/-! ## Configuration (config.ts) -/

/-- Content priorities of config.ts. The source string `syntax` is the
    constructor `stx`, since its literal spelling is reserved in Lean. -/
inductive ContentPriority where
  | codeExamples
  | typeRules
  | gotchas
  | signatures
  | patterns
  | constraints
  | stx
  | options
  | templates
  | checklists
deriving DecidableEq, Repr

structure SourceMapping where
  sources : List String
  maxLines : Nat
  priorities : List ContentPriority
deriving DecidableEq, Repr

def DOC_ROOT : String := "packages/documentation/copy/en"
def TSCONFIG_ROOT : String := "packages/tsconfig-reference/copy/en"
def GLOSSARY_ROOT : String := "packages/glossary/copy/en"

/-- A single apostrophe, spelled via its code point. -/
def apos : String := ⟨[Char.ofNat 39]⟩

/-- `REF_FILE_SOURCES` of config.ts, in declaration order. -/
def REF_FILE_SOURCES : List (String × SourceMapping) :=
  [("type-system-core.md",
    { sources := [DOC_ROOT ++ "/handbook-v2/Basics.md",
                  DOC_ROOT ++ "/handbook-v2/Everyday Types.md",
                  DOC_ROOT ++ "/handbook-v2/Narrowing.md",
                  DOC_ROOT ++ "/handbook-v2/Object Types.md",
                  DOC_ROOT ++ "/reference/Type Compatibility.md",
                  DOC_ROOT ++ "/reference/Type Inference.md"],
      maxLines := 350,
      priorities := [.codeExamples, .typeRules, .gotchas] }),
   ("functions-and-classes.md",
    { sources := [DOC_ROOT ++ "/handbook-v2/More on Functions.md",
                  DOC_ROOT ++ "/handbook-v2/Classes.md",
                  DOC_ROOT ++ "/handbook-v2/Type Manipulation/Generics.md"],
      maxLines := 400,
      priorities := [.signatures, .patterns, .constraints] }),
   ("type-manipulation.md",
    { sources := [DOC_ROOT ++ "/handbook-v2/Type Manipulation/_Creating Types from Types.md",
                  DOC_ROOT ++ "/handbook-v2/Type Manipulation/Conditional Types.md",
                  DOC_ROOT ++ "/handbook-v2/Type Manipulation/Mapped Types.md",
                  DOC_ROOT ++ "/handbook-v2/Type Manipulation/Template Literal Types.md",
                  DOC_ROOT ++ "/handbook-v2/Type Manipulation/Indexed Access Types.md",
                  DOC_ROOT ++ "/handbook-v2/Type Manipulation/Keyof Type Operator.md",
                  DOC_ROOT ++ "/handbook-v2/Type Manipulation/Typeof Type Operator.md"],
      maxLines := 350,
      priorities := [.stx, .patterns, .codeExamples] }),
   ("utility-types.md",
    { sources := [DOC_ROOT ++ "/reference/Utility Types.md"],
      maxLines := 250,
      priorities := [.signatures, .codeExamples, .gotchas] }),
   ("modules-and-namespaces.md",
    { sources := [DOC_ROOT ++ "/handbook-v2/Modules.md",
                  DOC_ROOT ++ "/modules-reference/Introduction.md",
                  DOC_ROOT ++ "/modules-reference/Theory.md",
                  DOC_ROOT ++ "/modules-reference/Reference.md",
                  DOC_ROOT ++ "/reference/Namespaces.md",
                  DOC_ROOT ++ "/reference/Namespaces and Modules.md"],
      maxLines := 300,
      priorities := [.patterns, .gotchas, .codeExamples] }),
   ("tsconfig-guide.md",
    { sources := [DOC_ROOT ++ "/project-config/tsconfig.json.md",
                  DOC_ROOT ++ "/project-config/Compiler Options.md",
                  DOC_ROOT ++ "/project-config/Project References.md",
                  DOC_ROOT ++ "/project-config/Configuring Watch.md",
                  DOC_ROOT ++ "/project-config/Integrating with Build Tools.md",
                  DOC_ROOT ++ "/modules-reference/guides/Choosing Compiler Options.md"],
      maxLines := 300,
      priorities := [.options, .patterns, .gotchas] }),
   ("tsconfig-options-reference.md",
    { sources := [TSCONFIG_ROOT ++ "/options/*.md"],
      maxLines := 400,
      priorities := [.options, .gotchas] }),
   ("declaration-files.md",
    { sources := [DOC_ROOT ++ "/declaration-files/Introduction.md",
                  DOC_ROOT ++ "/declaration-files/By Example.md",
                  DOC_ROOT ++ "/declaration-files/Do" ++ apos ++ "s and Don" ++ apos ++ "ts.md",
                  DOC_ROOT ++ "/declaration-files/Deep Dive.md",
                  DOC_ROOT ++ "/declaration-files/Library Structures.md",
                  DOC_ROOT ++ "/declaration-files/Publishing.md",
                  DOC_ROOT ++ "/declaration-files/Consumption.md"],
      maxLines := 200,
      priorities := [.patterns, .gotchas, .codeExamples] }),
   ("code-review-checklist.md",
    { sources := [DOC_ROOT ++ "/handbook-v2/Basics.md",
                  DOC_ROOT ++ "/handbook-v2/Narrowing.md",
                  DOC_ROOT ++ "/handbook-v2/Everyday Types.md",
                  DOC_ROOT ++ "/reference/Utility Types.md",
                  DOC_ROOT ++ "/declaration-files/Do" ++ apos ++ "s and Don" ++ apos ++ "ts.md",
                  DOC_ROOT ++ "/reference/Enums.md",
                  DOC_ROOT ++ "/reference/Decorators.md"],
      maxLines := 250,
      priorities := [.gotchas, .typeRules, .checklists] }),
   ("project-templates.md",
    { sources := [DOC_ROOT ++ "/project-config/tsconfig.json.md",
                  DOC_ROOT ++ "/project-config/Compiler Options.md",
                  TSCONFIG_ROOT ++ "/options/*.md"],
      maxLines := 300,
      priorities := [.templates, .options, .patterns] })]

/-! ## Condensation (condense.ts) -/

/-- `removeCodeBlocks`: delete every lazily-matched fenced block. -/
def removeCodeBlocksGo (fuel : Nat) (l : List Char) : List Char :=
  match fuel, l with
  | 0, l => l
  | _, [] => []
  | fuel + 1, c :: rest =>
    if fenceMarker.isPrefixOf (c :: rest) then
      match splitFirst fenceMarker ((c :: rest).drop 3) with
      | some (_, after) => removeCodeBlocksGo fuel after
      | none => c :: removeCodeBlocksGo fuel rest
    else c :: removeCodeBlocksGo fuel rest

def removeCodeBlocks (content : String) : String :=
  jsTrimStr ⟨removeCodeBlocksGo content.data.length content.data⟩

/-- Split a line list at empty lines, the line-level reading of the
    paragraph split `text.split(/\n\n+/)`; empty groups produced by longer
    newline runs are trimmed away below exactly as the regex split's empty
    pieces are. -/
def splitOnEmptyGo (acc : List String) : List String → List (List String)
  | [] => [acc.reverse]
  | l :: rest =>
    if l = "" then acc.reverse :: splitOnEmptyGo [] rest
    else splitOnEmptyGo (l :: acc) rest

/-- `splitParagraphs` of condense.ts. -/
def splitParagraphs (text : String) : List String :=
  ((splitOnEmptyGo [] (strLines text)).map (fun g => jsTrimStr (joinNl g))).filter
    (fun p => p ≠ "")

def isSentenceEnd (c : Char) : Bool := c = '.' || c = '!' || c = '?'

/-- `extractFirstSentence` of condense.ts: normalise whitespace, take the
    prefix up to the first sentence terminator, else the first 120
    characters. -/
def extractFirstSentence (paragraph : String) : String :=
  let normalized := (jsTrimStr ⟨collapseWsGo false paragraph.data⟩).data
  let pre := normalized.takeWhile (fun c => ¬ isSentenceEnd c)
  if pre ≠ [] ∧ pre.length < normalized.length then
    jsTrimStr ⟨pre ++ [(normalized.drop pre.length).headD ' ']⟩
  else ⟨normalized.take 120⟩

def isTsLang (b : CodeBlock) : Bool :=
  b.lang = "ts" || b.lang = "typescript" || b.lang = "tsx"

/-- Insert before the first element of at least equal line count. -/
def insertByLines (b : CodeBlock) : List CodeBlock → List CodeBlock
  | [] => [b]
  | c :: rest =>
    if b.lines ≤ c.lines then b :: c :: rest else c :: insertByLines b rest

/-- The stable JavaScript `sort((a, b) => a.lines - b.lines)` as a stable
    insertion sort: a stable ascending sort is unique, so the two agree on
    every input. -/
def sortByLines : List CodeBlock → List CodeBlock
  | [] => []
  | b :: rest => insertByLines b (sortByLines rest)

/-- `selectBestCodeBlock` of condense.ts: restrict to TypeScript-language
    blocks, prefer the shortest whose recorded line count lies in [2,15],
    else fall back to the shortest of any size. -/
def selectBestCodeBlock (blocks : List CodeBlock)
    (_priorities : List ContentPriority) : Option CodeBlock :=
  let tsBlocks := blocks.filter isTsLang
  if tsBlocks.length = 0 then none
  else
    match sortByLines (tsBlocks.filter (fun b => 2 ≤ b.lines && b.lines ≤ 15)) with
    | b :: _ => some b
    | [] => (sortByLines tsBlocks).head?

/-- The heading lines of `condenseSection`: the heading shifted one level
    down (capped at four hashes) and a blank line. -/
def headingParts (s : Section) : List String :=
  if s.heading ≠ "" then
    [⟨List.replicate (min (s.level + 1) 4) '#'⟩ ++ " " ++ s.heading, ""]
  else []

/-- The digest-mode prose loop: one bullet per paragraph, first sentence
    only, stopping once the accumulated part count reaches the limit. -/
def bulletLoop (limit : Nat) : Nat → List String → List String
  | _, [] => []
  | cur, p :: rest =>
    if limit ≤ cur then []
    else
      let fs := extractFirstSentence p
      if fs ≠ "" then ("- " ++ fs) :: bulletLoop limit (cur + 1) rest
      else bulletLoop limit cur rest

/-- The verbatim prose loop: emit the non-blank lines up to the limit. -/
def verbatimLoop (limit : Nat) : Nat → List String → List String
  | _, [] => []
  | cur, l :: rest =>
    if limit ≤ cur then [] else l :: verbatimLoop limit (cur + 1) rest

/-- The code tail of `condenseSection`: attempted only when the code share
    exceeds two lines, and emitted only when the cleaned block plus its two
    fence lines fits it. -/
def codePart (blocks : List CodeBlock) (codeBudget : Nat)
    (priorities : List ContentPriority) : List String :=
  if 2 < codeBudget then
    match selectBestCodeBlock blocks priorities with
    | some b =>
      let codeLines := strLines (cleanTwoslash b.content)
      if codeLines.length ≤ codeBudget - 2 then
        ("" :: "```ts" :: codeLines) ++ ["```"]
      else []
    | none => []
  else []

/-- The prose lines of `condenseSection`: the prose share of the budget is
    `Math.floor(budget * 0.6)`, written `budget * 3 / 5` — the two agree
    exactly throughout the pipeline's budget range (they can differ only
    when the float product of `budget` with the inexact 0.6 crosses an
    integer, far beyond 2^49). The loops count the already-emitted heading
    lines against the prose limit, as the source's `parts.length` checks
    do. -/
def prosePartsOf (s : Section) (budget : Nat) : List String :=
  let prose := removeCodeBlocks (stripHtml s.content)
  let proseLines := (strLines prose).filter (fun l => jsTrimStr l ≠ "")
  let proseBudget := budget * 3 / 5
  if proseBudget < proseLines.length then
    bulletLoop (proseBudget + 2) (headingParts s).length (splitParagraphs prose)
  else verbatimLoop (proseBudget + 2) (headingParts s).length proseLines

/-- `condenseSection` of condense.ts: heading, condensed prose (60% of the
    budget), best code example (the rest). -/
def condenseSection (s : Section) (budget : Nat)
    (priorities : List ContentPriority) : String :=
  joinNl (headingParts s ++ prosePartsOf s budget
    ++ codePart s.codeBlocks (budget - budget * 3 / 5) priorities)

/-- The per-section budget of `condenseDoc`:
    `max(3, floor((sectionLines / max(total, 1)) * (lineBudget - 2)))`,
    with the float product written as an exact floor division. -/
def sectionBudget (sectionLines totalContentLines : Nat) (lineBudget : Int) : Int :=
  max 3 (Int.fdiv ((sectionLines : Int) * (lineBudget - 2)) ((max totalContentLines 1 : Nat) : Int))

/-- The section loop of `condenseDoc`, threading the remaining global
    budget (an integer: it may go negative before the loop stops). -/
def condenseDocGo (priorities : List ContentPriority) (lineBudget : Int)
    (total : Nat) : List Section → Int → List String
  | [], _ => []
  | s :: rest, remaining =>
    if remaining ≤ 0 then []
    else
      let budget := min (sectionBudget (countLines s.content) total lineBudget) remaining
      let condensed := condenseSection s budget.toNat priorities
      if jsTrimStr condensed ≠ "" then
        condensed :: condenseDocGo priorities lineBudget total rest
          (remaining - countLines condensed)
      else condenseDocGo priorities lineBudget total rest remaining

/-- `condenseDoc` of condense.ts: title (two reserved lines), then the
    sections with non-trivial content under proportional budgets. -/
def condenseDoc (doc : DocFile) (lineBudget : Int)
    (priorities : List ContentPriority) : String :=
  let title := getTitle doc
  let sections := doc.sections.filter (fun s => s.heading ≠ "" || jsTrimStr s.content ≠ "")
  let total := (sections.map (fun s => countLines s.content)).sum
  joinNl (("## " ++ title) :: "" :: condenseDocGo priorities lineBudget total
    sections (lineBudget - 2))

/-! ## Rule extraction (condense.ts, rule-extraction revision) -/

/-- Rule polarity; `do`/`dont`/`info` of the source. -/
inductive RuleKind where
  | doK
  | dontK
  | infoK
deriving DecidableEq, Repr

structure Rule where
  heading : String
  type : RuleKind
  text : String
deriving DecidableEq, Repr

/-- `GENERIC_HEADINGS` of condense.ts. -/
def GENERIC_HEADINGS : List String :=
  ["example", "examples", "try", "try it", "usage", "syntax",
   "description", "details", "see also", "note", "notes"]

def toLowerStr (s : String) : String := ⟨s.data.map Char.toLower⟩

/-- `replace(/[\x60#]/g, "")`: drop backticks and hashes. -/
def stripTickHash (s : String) : String :=
  ⟨s.data.filter (fun c => ¬ (c = Char.ofNat 96 || c = '#'))⟩

/-- `resolveHeading` of condense.ts: generic section headings fall back to
    the parent heading. -/
def resolveHeading (heading parentHeading fallback : String) : String :=
  let h := stripLinks (if heading ≠ "" then heading else fallback)
  if GENERIC_HEADINGS.contains (jsTrimStr (stripTickHash (toLowerStr h))) then
    let parent := stripLinks parentHeading
    if parent ≠ "" then parent else h
  else h

def strStartsWith (s pre : String) : Bool := pre.data.isPrefixOf s.data

def strIncludesGo (sub : List Char) : List Char → Bool
  | [] => sub.isPrefixOf []
  | c :: rest => sub.isPrefixOf (c :: rest) || strIncludesGo sub rest

/-- `s.includes(sub)`: contiguous substring test. -/
def strIncludes (s sub : String) : Bool := strIncludesGo sub.data s.data

def crossMark : String := "❌"
def checkMark : String := "✅"
def dontBold : String := "**Don" ++ apos ++ "t**"
def dontItal : String := "_Don" ++ apos ++ "t_"

/-- `trimmed.match(/^\*\*Do\*\*\s/)`. -/
def isBoldDo (l : String) : Bool :=
  "**Do**".data.isPrefixOf l.data &&
    (match l.data.drop 6 with
     | c :: _ => isJsWs c
     | [] => false)

/-- Case-insensitive literal keyword match (keyword given lowercase),
    returning the remainder. -/
def matchKw (kw : String) (l : List Char) : Option (List Char) :=
  if (l.take kw.data.length).map Char.toLower = kw.data then
    some (l.drop kw.data.length)
  else none

/-- The word boundary `\b` after a keyword ending in a word character. -/
def wordBoundary (l : List Char) : Bool :=
  match l with
  | [] => true
  | c :: _ => ¬ isWordChar c

def matchKwB (kw : String) (l : List Char) : Bool :=
  match matchKw kw l with
  | some rest => wordBoundary rest
  | none => false

/-- `Use\s+\S+\s+instead` after the list marker. Whitespace and
    non-whitespace runs are maximal, which is exactly what the greedy
    quantifiers can match here. -/
def matchUseInstead (l : List Char) : Bool :=
  match matchKw "use" l with
  | none => false
  | some r1 =>
    let w1 := r1.takeWhile isJsWs
    if w1 = [] then false
    else
      let r2 := r1.drop w1.length
      let nw := r2.takeWhile (fun c => ¬ isJsWs c)
      if nw = [] then false
      else
        let r3 := r2.drop nw.length
        let w2 := r3.takeWhile isJsWs
        if w2 = [] then false
        else matchKwB "instead" (r3.drop w2.length)

/-- `^[-*]\s+` — the bullet marker — returning what follows it. -/
def listMarkerRest (l : List Char) : Option (List Char) :=
  match l with
  | c :: rest =>
    if c = '-' || c = '*' then
      let w := rest.takeWhile isJsWs
      if w = [] then none else some (rest.drop w.length)
    else none
  | [] => none

/-- The prescriptive-bullet regex of extractRules. -/
def matchesPrescriptive (trimmed : String) : Bool :=
  match listMarkerRest trimmed.data with
  | none => false
  | some r =>
    matchKwB "always" r || matchKwB "never" r || matchKwB "prefer" r
      || matchKwB "avoid" r || matchKwB "do not" r
      || matchKwB ("don" ++ apos ++ "t") r || matchUseInstead r

/-- The negative-verb regex of extractRules. -/
def matchesDontVerb (trimmed : String) : Bool :=
  match listMarkerRest trimmed.data with
  | none => false
  | some r =>
    matchKwB "never" r || matchKwB "avoid" r || matchKwB "do not" r
      || matchKwB ("don" ++ apos ++ "t") r

/-- The per-line polarity decision of `extractRules`, in source order: the
    negative glyph or bold/italic negative marker, then the positive glyph
    or bold positive marker, then the prescriptive verbs. -/
def classifyRuleLine (trimmed : String) : Option RuleKind :=
  if strStartsWith trimmed crossMark || strIncludes trimmed dontBold
      || strIncludes trimmed dontItal then some .dontK
  else if strStartsWith trimmed checkMark || isBoldDo trimmed then some .doK
  else if matchesPrescriptive trimmed then
    some (if matchesDontVerb trimmed then .dontK else .doK)
  else none

def dropUnderscoreWs (l : List Char) : List Char :=
  (match l with
   | '_' :: y => y
   | y => y).dropWhile isJsWs

/-- `cleanRuleText`, the four leading-marker strips followed by a trim. -/
def stripRuleMarker1 (l : List Char) : List Char :=
  match l with
  | c :: d :: rest =>
    if (c = '-' || c = '*') && isJsWs d then (d :: rest).dropWhile isJsWs else l
  | _ => l

def stripRuleMarker2 (l : List Char) : List Char :=
  match l with
  | c :: rest =>
    if c = '❌' || c = '✅' then rest.dropWhile isJsWs else l
  | [] => l

def stripRuleMarker3 (l : List Char) : List Char :=
  if ("**Don" ++ apos ++ "t**").data.isPrefixOf l then (l.drop 9).dropWhile isJsWs
  else if "**Do**".data.isPrefixOf l then (l.drop 6).dropWhile isJsWs
  else l

def stripRuleMarker4 (l : List Char) : List Char :=
  match l with
  | '_' :: rest =>
    if ("Don" ++ apos ++ "t").data.isPrefixOf rest then dropUnderscoreWs (rest.drop 5)
    else if "Do".data.isPrefixOf rest then dropUnderscoreWs (rest.drop 2)
    else l
  | _ =>
    if ("Don" ++ apos ++ "t").data.isPrefixOf l then dropUnderscoreWs (l.drop 5)
    else if "Do".data.isPrefixOf l then dropUnderscoreWs (l.drop 2)
    else l

def cleanRuleText (text : String) : String :=
  jsTrimStr ⟨stripRuleMarker4 (stripRuleMarker3 (stripRuleMarker2
    (stripRuleMarker1 text.data)))⟩

/-- `extractRules` of condense.ts (rule-extraction revision): strip markup
    from each section, classify every non-blank line, and tag each rule
    with the section's resolved heading. -/
def extractRules (doc : DocFile) : List Rule :=
  doc.sections.flatMap (fun sect =>
    let heading := resolveHeading sect.heading sect.parentHeading (getTitle doc)
    let content := stripLinks (stripHtml sect.content)
    (strLines content).filterMap (fun line =>
      let trimmed := jsTrimStr line
      if trimmed = "" then none
      else (classifyRuleLine trimmed).map (fun k =>
        Rule.mk heading k (cleanRuleText trimmed))))

/-! ## Reference-file generation (generate-refs.ts) -/

structure GeneratedRef where
  filename : String
  content : String
  sourceFiles : List String
deriving DecidableEq, Repr

/-- `titleCase`: uppercase every word character at a word boundary. -/
def titleCaseGo : Bool → List Char → List Char
  | _, [] => []
  | prevWord, c :: rest =>
    let w := isWordChar c
    (if w && ¬ prevWord then c.toUpper else c) :: titleCaseGo w rest

def titleCase (s : String) : String := ⟨titleCaseGo false s.data⟩

/-- Replace every dash with a space. -/
def dashToSpace (s : String) : String :=
  ⟨s.data.map (fun c => if c = '-' then ' ' else c)⟩

/-- The per-document budget of `generateStandardRef`:
    `Math.floor(mapping.maxLines / Math.max(docs.length, 1))`. The budget
    is the same for every document of the artifact. -/
def perDocBudget (maxLines numDocs : Nat) : Nat := maxLines / max numDocs 1

/-- `generateStandardRef` of generate-refs.ts. -/
def generateStandardRef (filename : String) (docs : List DocFile)
    (mapping : SourceMapping) : String :=
  let title := dashToSpace (dropMdSuffix filename)
  let body := docs.flatMap (fun doc =>
    let condensed := condenseDoc doc
      ((perDocBudget mapping.maxLines docs.length : Nat) : Int) mapping.priorities
    if jsTrimStr condensed ≠ "" then [condensed, ""] else [])
  joinNl (("# " ++ titleCase title) :: "" :: body)

/-- The line-budget enforcement at the end of `generateRef`: truncate and
    append the explicit truncation marker when the assembled content
    overflows `maxLines`. -/
def enforceBudget (content : String) (maxLines : Nat) : String :=
  let lines := strLines content
  if maxLines < lines.length then
    joinNl (lines.take maxLines) ++ "\n\n<!-- truncated -->"
  else content

/-- The source-reading loop of `generateRef`: parse every readable
    resolved file, skipping an unreadable one with a warning rather than
    aborting. -/
def readDocs (fs : String → Option String) (resolvedPaths : List String) : List DocFile :=
  resolvedPaths.filterMap (fun p => (fs p).map (fun raw => extractDoc p raw))

/-- The skeleton of `generateRef`: read the resolved sources (the literal
    paths plus the sorted glob expansions are taken as given), produce the
    artifact content — `gen` stands for the dispatch between the standard
    condenser and the three specialised generators — and enforce the line
    budget. The recorded `sourceFiles` list keeps every resolved path,
    readable or not. -/
def generateRefWith (gen : List DocFile → String) (fs : String → Option String)
    (filename : String) (mapping : SourceMapping)
    (resolvedPaths : List String) : GeneratedRef :=
  ⟨filename, enforceBudget (gen (readDocs fs resolvedPaths)) mapping.maxLines,
   resolvedPaths⟩

/-- `generateRef` on the standard (non-special-cased) path. -/
def generateRef (fs : String → Option String) (filename : String)
    (mapping : SourceMapping) (resolvedPaths : List String) : GeneratedRef :=
  generateRefWith (fun docs => generateStandardRef filename docs mapping)
    fs filename mapping resolvedPaths

/-- The per-document budget the specification's claim asserts, modelled
    from the spec's words for comparison with the source's `perDocBudget`:
    proportional to the document's raw body line count relative to the
    total, over the budget left after the title reserve. -/
def specProportionalDocBudget (docLines totalLines budgetAfterTitle : Nat) : Nat :=
  docLines * budgetAfterTitle / totalLines

/-! ## Concrete instances used by the theorems -/

/-- A well-formed ts block of 16 raw lines, two of which are twoslash
    directives, so its cleaned line count is 14. -/
def c7BlockA : CodeBlock :=
  let content := joinNl (["// @strict: true", "// @errors: 2345"]
    ++ List.replicate 14 "let a = 1")
  ⟨"ts", content, true, countLines content⟩

/-- A well-formed ts block of 10 raw lines, nine of which are twoslash
    directives, so its cleaned line count is 1. -/
def c7BlockB : CodeBlock :=
  let content := joinNl (List.replicate 9 "// @errors: 2345" ++ ["let b = 2"])
  ⟨"ts", content, true, countLines content⟩

/-- A section whose only code block carries a non-TypeScript language
    tag. -/
def c10Sect : Section :=
  ⟨"Only JS", 2, "", "Some prose here.\n```js\nvar x = 1\n```", [⟨"js", "var x = 1", false, 1⟩]⟩

/-- Two separately constructed but identical parses of one document. -/
def c5DocA : DocFile := extractDoc "Demo.md" "# T\nSome prose here. More.\n"

def c5DocB : DocFile := extractDoc "Demo.md" "# T\nSome prose here. More.\n"

/-- A tree in which `good.md` is readable and `missing.md` is not. -/
def c9Fs : String → Option String := fun p =>
  if p = "good.md" then some "# G\nSome text here.\n" else none

def c9Map : SourceMapping := ⟨["good.md", "missing.md"], 50, []⟩

def c9Gen : List DocFile → String := fun docs =>
  generateStandardRef "out.md" docs c9Map

/-! ## Manifest and drift detection (manifest.ts)

The manifest records, per source file, its content hash and the artifacts
it feeds into, and per output file, its hash, line count and provenance.
JavaScript objects keyed by path are embedded as association lists in
insertion order; the build constructs them with distinct keys. -/

structure SourceEntry where
  sha256 : String
  feedsInto : List String
deriving DecidableEq, Repr

structure OutputEntry where
  sha256 : String
  lines : Nat
  generatedFrom : List String
deriving DecidableEq, Repr

structure Manifest where
  version : String
  sourceRepo : String
  sourceCommit : String
  buildDate : String
  sources : List (String × SourceEntry)
  outputs : List (String × OutputEntry)
deriving DecidableEq, Repr

structure DriftReport where
  changed : List String
  added : List String
  removed : List String
  affectedOutputs : List String
  hasDrift : Bool
deriving DecidableEq, Repr

/-- Errors a drift check propagates to its caller: the manifest file is
    absent, or its content is not valid structured data. -/
inductive DriftError where
  | fileNotFound
  | invalidJson
deriving DecidableEq, Repr

/-- `relPath.replace(/^refs\//, "")`. -/
def stripRefsDir (p : String) : String :=
  if "refs/".data.isPrefixOf p.data then ⟨p.data.drop 5⟩ else p

/-- `buildManifest` of manifest.ts. `hash` is the SHA-256 function, `docFs`
    the documentation tree keyed by path relative to the docs root, and
    `outputFiles` the globbed output files with their contents (the glob
    returns files that exist, so their reads succeed). A source file whose
    read fails is skipped with a warning and leaves no entry. `buildDate`
    stands for `new Date().toISOString()`, an explicit input here. -/
def buildManifest (hash : String → String) (docFs : String → Option String)
    (outputFiles : List (String × String))
    (sourceCommit sourceRepo buildDate : String)
    (sourceMappings : List (String × List String)) : Manifest :=
  let allSourceFiles := dedupFirst (sourceMappings.flatMap (fun kv => kv.2))
  let fileToOutputs := fun f =>
    sourceMappings.flatMap (fun kv => (kv.2.filter (fun s => s = f)).map (fun _ => kv.1))
  let sources := allSourceFiles.filterMap (fun p =>
    (docFs p).map (fun c => (p, SourceEntry.mk (hash c) (fileToOutputs p))))
  let outputs := outputFiles.map (fun pc =>
    (pc.1, OutputEntry.mk (hash pc.2) (countLines pc.2)
      (match List.lookup (stripRefsDir pc.1) sourceMappings with
       | some fl => fl
       | none => ["template"])))
  { version := "1.0.0", sourceRepo := sourceRepo, sourceCommit := sourceCommit,
    buildDate := buildDate, sources := sources, outputs := outputs }

/-- The drift computation of `detectDrift`, after the manifest has been
    loaded: one pass over the recorded sources classifying each as removed
    (file missing) or changed (hash differs), a scan `currentDocFiles` of
    the doc glob patterns for paths not recorded in the manifest, and the
    union of `feedsInto` over every changed-or-removed source. -/
def driftReport (hash : String → String) (docFs : String → Option String)
    (m : Manifest) (currentDocFiles : List String) : DriftReport :=
  let changed := m.sources.filterMap (fun pe =>
    match docFs pe.1 with
    | some c => if hash c ≠ pe.2.sha256 then some pe.1 else none
    | none => none)
  let removed := m.sources.filterMap (fun pe =>
    match docFs pe.1 with
    | some _ => none
    | none => some pe.1)
  let added := currentDocFiles.filter (fun f => ¬ (m.sources.map (fun pe => pe.1)).contains f)
  let affectedOutputs := dedupFirst ((changed ++ removed).flatMap (fun f =>
    match List.lookup f m.sources with
    | some e => e.feedsInto
    | none => []))
  { changed := changed, added := added, removed := removed,
    affectedOutputs := affectedOutputs,
    hasDrift := decide (0 < changed.length) || decide (0 < added.length)
      || decide (0 < removed.length) }

/-- `detectDrift` of manifest.ts: read the manifest file (its absence
    propagates), parse it (invalid structured data propagates), then run
    the pure drift computation. `manifestContent` is the result of the
    `readFile` on the manifest path and `parse` stands for `JSON.parse`. -/
def detectDrift (hash : String → String) (docFs : String → Option String)
    (manifestContent : Option String) (parse : String → Option Manifest)
    (currentDocFiles : List String) : Except DriftError DriftReport :=
  match manifestContent with
  | none => .error .fileNotFound
  | some raw =>
    match parse raw with
    | none => .error .invalidJson
    | some m => .ok (driftReport hash docFs m currentDocFiles)

/-- `build()` of index.ts followed by `check()`s drift computation against
    the same, unmodified tree: the manifest written by the build is the one
    the drift check reads back (the JSON round-trip through disk is
    faithful). -/
def buildThenDrift (hash : String → String) (docFs : String → Option String)
    (outputFiles : List (String × String))
    (sourceCommit sourceRepo buildDate : String)
    (sourceMappings : List (String × List String))
    (currentDocFiles : List String) : DriftReport :=
  driftReport hash docFs
    (buildManifest hash docFs outputFiles sourceCommit sourceRepo buildDate sourceMappings)
    currentDocFiles

theorem splitNlChars_ne_nil (l : List Char) : splitNlChars l ≠ [] := by
  cases l with
  | nil => simp [splitNlChars]
  | cons c cs =>
    simp only [splitNlChars]
    split
    · simp
    · split <;> simp

theorem splitNlChars_length (l : List Char) :
    (splitNlChars l).length = l.count '\n' + 1 := by
  induction l with
  | nil => simp [splitNlChars]
  | cons c cs ih =>
    simp only [splitNlChars]
    by_cases h : c = '\n'
    · simp [h, List.count_cons, ih]
    · simp only [if_neg h]
      rcases hs : splitNlChars cs with _ | ⟨hd, tl⟩
      · exact absurd hs (splitNlChars_ne_nil cs)
      · have := ih
        rw [hs] at this
        simp [List.count_cons, h, ← this]

theorem splitNlChars_no_nl (l : List Char) :
    ∀ p ∈ splitNlChars l, '\n' ∉ p := by
  induction l with
  | nil => intro p hp; simp [splitNlChars] at hp; simp [hp]
  | cons c cs ih =>
    intro p hp
    simp only [splitNlChars] at hp
    by_cases h : c = '\n'
    · rw [if_pos h] at hp
      rcases List.mem_cons.mp hp with hp | hp
      · simp [hp]
      · exact ih p hp
    · rw [if_neg h] at hp
      rcases hs : splitNlChars cs with _ | ⟨hd, tl⟩
      · exact absurd hs (splitNlChars_ne_nil cs)
      · rw [hs] at hp
        rcases List.mem_cons.mp hp with hp | hp
        · subst hp
          have hhd : '\n' ∉ hd := ih hd (hs ▸ List.mem_cons_self hd tl)
          intro hmem
          rcases List.mem_cons.mp hmem with h1 | h1
          · exact h (h1.symm)
          · exact hhd h1
        · exact ih p (hs ▸ List.mem_cons_of_mem hd hp)

theorem countLines_eq_count (s : String) :
    countLines s = s.data.count '\n' + 1 := by
  simp [countLines, strLines, splitNlChars_length]

theorem countLines_append (s t : String) :
    countLines (s ++ t) = countLines s + countLines t - 1 := by
  rw [countLines_eq_count, countLines_eq_count, countLines_eq_count,
    String.data_append, List.count_append]
  omega

/-- Newline count of a `joinNl` of newline-free pieces. -/
theorem count_joinNl {ls : List String}
    (h : ∀ p ∈ ls, '\n' ∉ p.data) (hne : ls ≠ []) :
    (joinNl ls).data.count '\n' = ls.length - 1 := by
  induction ls with
  | nil => simp at hne
  | cons s rest ih =>
    rcases rest with _ | ⟨t, rest'⟩
    · have : s.data.count '\n' = 0 :=
        List.count_eq_zero.mpr (h s (List.mem_cons_self s []))
      simpa [joinNl] using this
    · have hs : s.data.count '\n' = 0 :=
        List.count_eq_zero.mpr (h s (List.mem_cons_self _ _))
      have hrest : ∀ p ∈ t :: rest', '\n' ∉ p.data := fun p hp =>
        h p (List.mem_cons_of_mem s hp)
      have ihr := ih hrest (by simp)
      show ((s ++ "\n" ++ joinNl (t :: rest')).data.count '\n') = _
      rw [String.data_append, String.data_append, List.count_append,
        List.count_append, hs, ihr]
      simp [List.length_cons]
      omega

theorem countLines_joinNl {ls : List String}
    (h : ∀ p ∈ ls, '\n' ∉ p.data) (hne : ls ≠ []) :
    countLines (joinNl ls) = ls.length := by
  rw [countLines_eq_count, count_joinNl h hne]
  have : ls.length ≠ 0 := fun hl => hne (List.length_eq_zero.mp hl)
  omega

theorem strLines_no_nl {s : String} {p : String} (hp : p ∈ strLines s) :
    '\n' ∉ p.data := by
  simp only [strLines, List.mem_map] at hp
  obtain ⟨cs, hcs, rfl⟩ := hp
  exact splitNlChars_no_nl _ cs hcs

theorem strLines_ne_nil (s : String) : strLines s ≠ [] := by
  simp [strLines, splitNlChars_ne_nil]

theorem mem_dedupFirstGo {a : String} {seen l} :
    a ∈ dedupFirstGo seen l ↔ a ∈ l ∧ a ∉ seen := by
  induction l generalizing seen with
  | nil => simp [dedupFirstGo]
  | cons x xs ih =>
    simp only [dedupFirstGo]
    by_cases hx : x ∈ seen
    · rw [if_pos hx, ih]
      constructor
      · rintro ⟨h1, h2⟩; exact ⟨List.mem_cons_of_mem _ h1, h2⟩
      · rintro ⟨h1, h2⟩
        rcases List.mem_cons.mp h1 with rfl | h1
        · exact absurd hx h2
        · exact ⟨h1, h2⟩
    · rw [if_neg hx]
      constructor
      · intro h
        rcases List.mem_cons.mp h with rfl | h
        · exact ⟨List.mem_cons_self _ _, hx⟩
        · rw [ih] at h
          refine ⟨List.mem_cons_of_mem _ h.1, ?_⟩
          intro hs
          exact h.2 (List.mem_cons_of_mem _ hs)
      · rintro ⟨h1, h2⟩
        rcases List.mem_cons.mp h1 with rfl | h1
        · exact List.mem_cons_self _ _
        · by_cases hax : a = x
          · subst hax; exact List.mem_cons_self _ _
          · exact List.mem_cons_of_mem _
              (ih.mpr ⟨h1, fun hs => by
                rcases List.mem_cons.mp hs with h | h
                · exact hax h
                · exact h2 h⟩)

theorem mem_dedupFirst {a : String} {l : List String} :
    a ∈ dedupFirst l ↔ a ∈ l := by
  rw [dedupFirst, mem_dedupFirstGo]
  simp

/-! ## Drift-report helper lemmas -/

theorem driftReport_changed (hash : String → String) (docFs : String → Option String)
    (m : Manifest) (scan : List String) :
    (driftReport hash docFs m scan).changed = m.sources.filterMap (fun pe =>
      match docFs pe.1 with
      | some c => if hash c ≠ pe.2.sha256 then some pe.1 else none
      | none => none) := rfl

theorem driftReport_removed (hash : String → String) (docFs : String → Option String)
    (m : Manifest) (scan : List String) :
    (driftReport hash docFs m scan).removed = m.sources.filterMap (fun pe =>
      match docFs pe.1 with
      | some _ => none
      | none => some pe.1) := rfl

theorem driftReport_added (hash : String → String) (docFs : String → Option String)
    (m : Manifest) (scan : List String) :
    (driftReport hash docFs m scan).added =
      scan.filter (fun f => ¬ (m.sources.map (fun pe => pe.1)).contains f) := rfl

theorem driftReport_affected (hash : String → String) (docFs : String → Option String)
    (m : Manifest) (scan : List String) :
    (driftReport hash docFs m scan).affectedOutputs =
      dedupFirst (((driftReport hash docFs m scan).changed
          ++ (driftReport hash docFs m scan).removed).flatMap (fun f =>
        match List.lookup f m.sources with
        | some e => e.feedsInto
        | none => [])) := rfl

theorem driftReport_hasDrift_iff (hash : String → String) (docFs : String → Option String)
    (m : Manifest) (scan : List String) :
    (driftReport hash docFs m scan).hasDrift = true ↔
      ((driftReport hash docFs m scan).changed ≠ []
        ∨ (driftReport hash docFs m scan).added ≠ []
        ∨ (driftReport hash docFs m scan).removed ≠ []) := by
  show (decide _ || decide _ || decide _) = true ↔ _
  simp only [Bool.or_eq_true, decide_eq_true_eq, List.length_pos]
  exact or_assoc

/-! ## Claim C2: drift classification -/

/-- C2. For every source path recorded in a persisted manifest, detectDrift
classifies it as removed when the file is missing on disk and as changed
when the file exists but its current content hash differs from the recorded
hash; the report's affectedOutputs equals the union of the feedsInto sets of
every changed-or-removed source; and hasDrift is true if and only if
changed ∪ added ∪ removed is non-empty. -/
theorem c2_drift_classification (hash : String → String)
    (docFs : String → Option String) (m : Manifest) (scan : List String) :
    (∀ p e, (p, e) ∈ m.sources →
      (docFs p = none → p ∈ (driftReport hash docFs m scan).removed) ∧
      (∀ c, docFs p = some c → hash c ≠ e.sha256 →
        p ∈ (driftReport hash docFs m scan).changed)) ∧
    (∀ a, a ∈ (driftReport hash docFs m scan).affectedOutputs ↔
      ∃ f, f ∈ (driftReport hash docFs m scan).changed
            ++ (driftReport hash docFs m scan).removed ∧
        ∃ e, List.lookup f m.sources = some e ∧ a ∈ e.feedsInto) ∧
    ((driftReport hash docFs m scan).hasDrift = true ↔
      ((driftReport hash docFs m scan).changed ≠ []
        ∨ (driftReport hash docFs m scan).added ≠ []
        ∨ (driftReport hash docFs m scan).removed ≠ [])) := by
  refine ⟨?_, ?_, driftReport_hasDrift_iff hash docFs m scan⟩
  · intro p e hmem
    constructor
    · intro hnone
      rw [driftReport_removed]
      exact List.mem_filterMap.mpr ⟨(p, e), hmem, by simp [hnone]⟩
    · intro c hsome hne
      rw [driftReport_changed]
      exact List.mem_filterMap.mpr ⟨(p, e), hmem, by simp [hsome, hne]⟩
  · intro a
    rw [driftReport_affected, mem_dedupFirst, List.mem_flatMap]
    constructor
    · rintro ⟨f, hf, ha⟩
      refine ⟨f, hf, ?_⟩
      rcases hl : List.lookup f m.sources with _ | e
      · rw [hl] at ha; simp at ha
      · rw [hl] at ha; exact ⟨e, rfl, ha⟩
    · rintro ⟨f, hf, e, hl, ha⟩
      exact ⟨f, hf, by rw [hl]; exact ha⟩

/-- Example filesystem for the C2 witness: `docs/a.md` has been deleted and
`docs/b.md` rewritten since the manifest recorded them. -/
def c2Fs : String → Option String := fun p =>
  if p = "docs/b.md" then some "new body" else none

/-- Example manifest for the C2 witness. -/
def c2M : Manifest :=
  { version := "1.0.0", sourceRepo := "r", sourceCommit := "c", buildDate := "d",
    sources := [("docs/a.md", ⟨"hashA", ["out1.md"]⟩),
                ("docs/b.md", ⟨"hashB", ["out2.md"]⟩)],
    outputs := [] }

theorem c2_drift_classification_witness :
    "docs/a.md" ∈ (driftReport (fun s => s) c2Fs c2M []).removed ∧
    "docs/b.md" ∈ (driftReport (fun s => s) c2Fs c2M []).changed ∧
    (driftReport (fun s => s) c2Fs c2M []).hasDrift = true := by
  obtain ⟨hclass, _, hdrift⟩ := c2_drift_classification (fun s => s) c2Fs c2M []
  refine ⟨(hclass "docs/a.md" ⟨"hashA", ["out1.md"]⟩ (by decide)).1 (by decide),
    (hclass "docs/b.md" ⟨"hashB", ["out2.md"]⟩ (by decide)).2 "new body"
      (by decide) (by decide), ?_⟩
  rw [hdrift]
  right; right
  intro h
  have : "docs/a.md" ∈ (driftReport (fun s => s) c2Fs c2M []).removed :=
    (hclass "docs/a.md" ⟨"hashA", ["out1.md"]⟩ (by decide)).1 (by decide)
  rw [h] at this
  simp at this

/-! ## Claim C1: build followed by drift detection -/

/-- Documentation tree for the C1 counterexample: `docs/a.md` feeds the one
configured artifact, while `docs/extra.md` sits under the scanned doc
patterns without feeding any artifact (as e.g. the glossary files that only
inform the hand-written SKILL.md template do in the real configuration). -/
def c1Fs : String → Option String := fun p =>
  if p = "docs/a.md" then some "alpha body" else
  if p = "docs/extra.md" then some "extra body" else none

def c1Mappings : List (String × List String) := [("out.md", ["docs/a.md"])]

def c1Outputs : List (String × String) := [("refs/out.md", "# Out\nbody")]

/-- Both files exist under the doc glob patterns, so both appear in the
current scan that detectDrift performs. -/
def c1Scan : List String := ["docs/a.md", "docs/extra.md"]

/-- C1 counterexample. Immediately after a build of this unmodified tree,
the drift check still reports drift: the scan for files absent from the
manifest classifies the unmapped-but-present `docs/extra.md` as added, so
hasDrift is true, refuting the claim that every tree yields hasDrift = false
with empty changed/added/removed. -/
theorem c1_counterexample :
    (buildThenDrift (fun s => s) c1Fs c1Outputs "commit" "repo" "date"
        c1Mappings c1Scan).hasDrift = true ∧
    (buildThenDrift (fun s => s) c1Fs c1Outputs "commit" "repo" "date"
        c1Mappings c1Scan).added = ["docs/extra.md"] ∧
    (buildThenDrift (fun s => s) c1Fs c1Outputs "commit" "repo" "date"
        c1Mappings c1Scan).changed = [] ∧
    (buildThenDrift (fun s => s) c1Fs c1Outputs "commit" "repo" "date"
        c1Mappings c1Scan).removed = [] := by
  decide

/-- C1 as amended. Build followed by drift detection against the same,
unmodified tree always yields empty changed and removed sets; and under the
additional assumption that every file found by the current doc-pattern scan
is recorded in the manifest — i.e. is listed as a source of some artifact
and was readable at build time — the added set is empty too and
hasDrift = false. (Without that assumption, doc files that feed no artifact
are reported as added even immediately after a build.) -/
theorem c1_amended (hash : String → String) (docFs : String → Option String)
    (outputFiles : List (String × String))
    (sourceCommit sourceRepo buildDate : String)
    (sourceMappings : List (String × List String)) (scan : List String) :
    (buildThenDrift hash docFs outputFiles sourceCommit sourceRepo buildDate
        sourceMappings scan).changed = [] ∧
    (buildThenDrift hash docFs outputFiles sourceCommit sourceRepo buildDate
        sourceMappings scan).removed = [] ∧
    ((∀ f ∈ scan, (∃ kv ∈ sourceMappings, f ∈ kv.2) ∧ (docFs f).isSome) →
      (buildThenDrift hash docFs outputFiles sourceCommit sourceRepo buildDate
          sourceMappings scan).added = [] ∧
      (buildThenDrift hash docFs outputFiles sourceCommit sourceRepo buildDate
          sourceMappings scan).hasDrift = false) := by
  have hsrc : ∀ pe ∈ (buildManifest hash docFs outputFiles sourceCommit
      sourceRepo buildDate sourceMappings).sources,
      ∃ c, docFs pe.1 = some c ∧ pe.2.sha256 = hash c := by
    intro pe hpe
    obtain ⟨q, _, hq⟩ := List.mem_filterMap.mp hpe
    obtain ⟨c, hc, hpe'⟩ := Option.map_eq_some'.mp hq
    refine ⟨c, ?_, ?_⟩
    · rw [← hpe']
      simp [hc]
    · rw [← hpe']
  have hchanged : (buildThenDrift hash docFs outputFiles sourceCommit sourceRepo
      buildDate sourceMappings scan).changed = [] := by
    rw [buildThenDrift, driftReport_changed]
    rw [List.filterMap_eq_nil_iff]
    intro pe hpe
    obtain ⟨c, hc, hsha⟩ := hsrc pe hpe
    simp [hc, hsha]
  have hremoved : (buildThenDrift hash docFs outputFiles sourceCommit sourceRepo
      buildDate sourceMappings scan).removed = [] := by
    rw [buildThenDrift, driftReport_removed]
    rw [List.filterMap_eq_nil_iff]
    intro pe hpe
    obtain ⟨c, hc, _⟩ := hsrc pe hpe
    simp [hc]
  refine ⟨hchanged, hremoved, fun hscan => ?_⟩
  have hadded : (buildThenDrift hash docFs outputFiles sourceCommit sourceRepo
      buildDate sourceMappings scan).added = [] := by
    rw [buildThenDrift, driftReport_added]
    rw [List.filter_eq_nil_iff]
    intro f hf
    obtain ⟨⟨kv, hkv, hfkv⟩, hreadable⟩ := hscan f hf
    obtain ⟨c, hc⟩ := Option.isSome_iff_exists.mp hreadable
    have hmemall : f ∈ dedupFirst (sourceMappings.flatMap (fun kv => kv.2)) :=
      mem_dedupFirst.mpr (List.mem_flatMap.mpr ⟨kv, hkv, hfkv⟩)
    have hmemkeys : f ∈ ((buildManifest hash docFs outputFiles sourceCommit
        sourceRepo buildDate sourceMappings).sources.map (fun pe => pe.1)) := by
      refine List.mem_map.mpr ⟨(f, SourceEntry.mk (hash c)
        (sourceMappings.flatMap (fun kv =>
          (kv.2.filter (fun s => s = f)).map (fun _ => kv.1)))), ?_, rfl⟩
      exact List.mem_filterMap.mpr ⟨f, hmemall, by simp [hc]⟩
    simp [hmemkeys]
  refine ⟨hadded, ?_⟩
  have hiff := driftReport_hasDrift_iff hash docFs
    (buildManifest hash docFs outputFiles sourceCommit sourceRepo buildDate
      sourceMappings) scan
  rw [buildThenDrift] at hchanged hremoved hadded ⊢
  rcases hb : (driftReport hash docFs (buildManifest hash docFs outputFiles
      sourceCommit sourceRepo buildDate sourceMappings) scan).hasDrift
  · rfl
  · exfalso
    rcases hiff.mp hb with h | h | h
    · exact h hchanged
    · exact h hadded
    · exact h hremoved

/-- A tree and configuration in which every scanned doc file is a readable
mapped source: here the amended claim yields a clean round trip. -/
def c1wFs : String → Option String := fun p =>
  if p = "docs/a.md" then some "alpha body" else none

theorem c1_amended_witness :
    (buildThenDrift (fun s => s) c1wFs c1Outputs "commit" "repo" "date"
        c1Mappings ["docs/a.md"]).added = [] ∧
    (buildThenDrift (fun s => s) c1wFs c1Outputs "commit" "repo" "date"
        c1Mappings ["docs/a.md"]).hasDrift = false :=
  (c1_amended (fun s => s) c1wFs c1Outputs "commit" "repo" "date"
    c1Mappings ["docs/a.md"]).2.2 (by decide)

/-! ## Claim C3: artifact line-budget bound -/

/-- The budget-enforcement contract of `generateRef`, for any positive
    budget: unmodified content within the budget, and on overflow exactly
    the first `maxLines` lines plus the two-line truncation marker. -/
theorem enforceBudget_spec (content : String) (maxLines : Nat) (h1 : 1 ≤ maxLines) :
    countLines (enforceBudget content maxLines) ≤ maxLines + 2 ∧
    (countLines content ≤ maxLines → enforceBudget content maxLines = content) ∧
    (maxLines < countLines content →
      enforceBudget content maxLines =
        joinNl ((strLines content).take maxLines) ++ "\n\n<!-- truncated -->" ∧
      countLines (enforceBudget content maxLines) = maxLines + 2) := by
  by_cases hlt : maxLines < countLines content
  · have heq : enforceBudget content maxLines =
        joinNl ((strLines content).take maxLines) ++ "\n\n<!-- truncated -->" := by
      rw [enforceBudget]
      simp only [countLines] at hlt
      rw [if_pos hlt]
    have hpieces : ∀ p ∈ (strLines content).take maxLines, '\n' ∉ p.data :=
      fun p hp => strLines_no_nl (List.mem_of_mem_take hp)
    have hlen : ((strLines content).take maxLines).length = maxLines := by
      rw [List.length_take]
      simp only [countLines] at hlt
      omega
    have hne : (strLines content).take maxLines ≠ [] := by
      intro hnil
      rw [hnil] at hlen
      simp at hlen
      omega
    have hcount : countLines (enforceBudget content maxLines) = maxLines + 2 := by
      rw [heq, countLines_eq_count, String.data_append, List.count_append]
      rw [count_joinNl hpieces hne, hlen]
      have hmark : ("\n\n<!-- truncated -->").data.count '\n' = 2 := by decide
      rw [hmark]
      omega
    exact ⟨by omega, fun hle => by omega, fun _ => ⟨heq, hcount⟩⟩
  · have heq : enforceBudget content maxLines = content := by
      rw [enforceBudget]
      simp only [countLines] at hlt
      rw [if_neg hlt]
    refine ⟨?_, fun _ => heq, fun h => absurd h hlt⟩
    rw [heq]
    omega

/-- C3. For every configured artifact, the generated output's line count is
at most maxLines; when the naturally assembled content exceeds maxLines it
is truncated and an explicit truncation marker is appended, and the
resulting output's line count is at most maxLines + 2. -/
theorem c3_budget_bound :
    ∀ entry ∈ REF_FILE_SOURCES, ∀ content : String,
      countLines (enforceBudget content entry.2.maxLines) ≤ entry.2.maxLines + 2 ∧
      (countLines content ≤ entry.2.maxLines →
        enforceBudget content entry.2.maxLines = content) ∧
      (entry.2.maxLines < countLines content →
        enforceBudget content entry.2.maxLines =
          joinNl ((strLines content).take entry.2.maxLines) ++ "\n\n<!-- truncated -->" ∧
        countLines (enforceBudget content entry.2.maxLines) = entry.2.maxLines + 2) := by
  intro entry hentry content
  have hpos : ∀ e ∈ REF_FILE_SOURCES, 1 ≤ e.2.maxLines := by decide
  exact enforceBudget_spec content entry.2.maxLines (hpos entry hentry)

theorem c3_budget_bound_witness :
    countLines (enforceBudget ("a\nb\nc") 250) ≤ 250 + 2 ∧
    enforceBudget ("a\nb\nc") 250 = "a\nb\nc" := by
  have h := c3_budget_bound ("utility-types.md",
    ({ sources := [DOC_ROOT ++ "/reference/Utility Types.md"],
       maxLines := 250,
       priorities := [.signatures, .codeExamples, .gotchas] } : SourceMapping))
    (by decide) ("a\nb\nc")
  exact ⟨h.1, h.2.1 (by decide)⟩

/-! ## Claim C5: the condenser is deterministic -/

/-- C5. For every document, line budget, and priority-tag list, running the
condenser twice on identical inputs produces byte-identical output text:
the embedded condenser (document- and section-level) is a pure function of
exactly these inputs, with no dependence on time or unordered-collection
iteration order. -/
theorem c5_condense_deterministic (d₁ d₂ : DocFile) (b₁ b₂ : Int)
    (p₁ p₂ : List ContentPriority) (s₁ s₂ : Section) (n₁ n₂ : Nat)
    (hd : d₁ = d₂) (hb : b₁ = b₂) (hp : p₁ = p₂) (hs : s₁ = s₂) (hn : n₁ = n₂) :
    condenseDoc d₁ b₁ p₁ = condenseDoc d₂ b₂ p₂ ∧
    condenseSection s₁ n₁ p₁ = condenseSection s₂ n₂ p₂ := by
  subst hd; subst hb; subst hp; subst hs; subst hn
  exact ⟨rfl, rfl⟩

theorem c5_condense_deterministic_witness :
    condenseDoc c5DocA 40 [] = condenseDoc c5DocB 40 [] :=
  (c5_condense_deterministic c5DocA c5DocB 40 40 [] []
    ⟨"H", 1, "", "x", []⟩ ⟨"H", 1, "", "x", []⟩ 5 5 rfl rfl rfl rfl rfl).1

/-! ## Claim C10: no any-language code fallback -/

/-- C10. For every section whose code blocks all carry a language tag
outside the target set (ts, typescript, tsx), condensing that section emits
no code block at all: the selector returns nothing, the code part is empty
for every code budget, and the section contributes only its heading and
condensed prose. -/
theorem c10_no_fallback (s : Section) (budget : Nat)
    (priorities : List ContentPriority)
    (h : ∀ b ∈ s.codeBlocks, b.lang ≠ "ts" ∧ b.lang ≠ "typescript" ∧ b.lang ≠ "tsx") :
    selectBestCodeBlock s.codeBlocks priorities = none ∧
    (∀ cb, codePart s.codeBlocks cb priorities = []) ∧
    condenseSection s budget priorities =
      joinNl (headingParts s ++ prosePartsOf s budget) := by
  have hfilter : s.codeBlocks.filter isTsLang = [] := by
    rw [List.filter_eq_nil_iff]
    intro b hb
    obtain ⟨h1, h2, h3⟩ := h b hb
    simp [isTsLang, h1, h2, h3]
  have hsel : selectBestCodeBlock s.codeBlocks priorities = none := by
    simp only [selectBestCodeBlock, hfilter]
    rfl
  have hcp : ∀ cb, codePart s.codeBlocks cb priorities = [] := by
    intro cb
    rw [codePart]
    split
    · rw [hsel]
    · rfl
  refine ⟨hsel, hcp, ?_⟩
  rw [condenseSection, hcp, List.append_nil]

theorem c10_no_fallback_witness :
    selectBestCodeBlock c10Sect.codeBlocks [] = none ∧
    condenseSection c10Sect 20 [] =
      joinNl (headingParts c10Sect ++ prosePartsOf c10Sect 20) := by
  obtain ⟨h1, _, h3⟩ := c10_no_fallback c10Sect 20 [] (by decide)
  exact ⟨h1, h3⟩

/-! ## Claim C8: rule polarity -/

/-- C8. The rule-polarity classifier maps the line `- Never use any` (with
backticks) to negative, the line `- Prefer unknown` to positive, and any
line beginning with the negative glyph to negative regardless of its verb
content; and on a small document, extractRules records exactly these
polarities. -/
theorem c8_rule_polarity :
    classifyRuleLine ("- Never use `any`") = some RuleKind.dontK ∧
    classifyRuleLine ("- Prefer `unknown`") = some RuleKind.doK ∧
    (∀ rest : String, classifyRuleLine (crossMark ++ rest) = some RuleKind.dontK) ∧
    (extractRules (extractDoc ("guide.md")
        ("# Guide\n## Example\n- Never use `any`\n- Prefer `unknown`\nplain text\n"))).map
      (fun r => r.type) = [RuleKind.dontK, RuleKind.doK] := by
  refine ⟨by decide, by decide, ?_, by decide⟩
  intro rest
  have hpre : strStartsWith (crossMark ++ rest) crossMark = true := by
    rw [strStartsWith, String.data_append]
    exact List.isPrefixOf_iff_prefix.mpr (List.prefix_append _ _)
  rw [classifyRuleLine]
  simp [hpre]

/-! ## Claim C9: error handling -/

theorem filterMap_filter_isSome {α β : Type} (f : α → Option β) (l : List α) :
    l.filterMap f = (l.filter (fun x => (f x).isSome)).filterMap f := by
  induction l with
  | nil => rfl
  | cons a t ih =>
    cases h : f a <;> simp [List.filterMap_cons, List.filter_cons, h, ih]

/-- C9. An individual source file that cannot be read during extraction is
skipped and the artifact is still produced from the remaining sources (the
generated content equals the content generated from the readable sources
alone), whereas a drift check with the manifest file absent, or with
manifest content that is not valid structured data, fails by propagating
the corresponding error; with a readable, parsable manifest the check
returns the drift report. -/
theorem c9_error_handling :
    (∀ (fs : String → Option String) (gen : List DocFile → String)
       (filename : String) (mapping : SourceMapping) (paths : List String),
       (generateRefWith gen fs filename mapping paths).content =
         (generateRefWith gen fs filename mapping
           (paths.filter (fun p => (fs p).isSome))).content) ∧
    (∀ (hash : String → String) (docFs : String → Option String)
       (parse : String → Option Manifest) (scan : List String),
       detectDrift hash docFs none parse scan = .error .fileNotFound) ∧
    (∀ (hash : String → String) (docFs : String → Option String)
       (raw : String) (parse : String → Option Manifest) (scan : List String),
       parse raw = none →
       detectDrift hash docFs (some raw) parse scan = .error .invalidJson) ∧
    (∀ (hash : String → String) (docFs : String → Option String)
       (raw : String) (parse : String → Option Manifest) (scan : List String)
       (m : Manifest), parse raw = some m →
       detectDrift hash docFs (some raw) parse scan =
         .ok (driftReport hash docFs m scan)) := by
  refine ⟨?_, fun _ _ _ _ => rfl, ?_, ?_⟩
  · intro fs gen filename mapping paths
    have hdocs : readDocs fs paths =
        readDocs fs (paths.filter (fun p => (fs p).isSome)) := by
      rw [readDocs, readDocs, filterMap_filter_isSome]
      congr 1
      apply List.filter_congr
      intro p _
      exact Option.isSome_map
    simp [generateRefWith, hdocs]
  · intro hash docFs raw parse scan hparse
    rw [detectDrift, hparse]
  · intro hash docFs raw parse scan m hparse
    rw [detectDrift, hparse]

theorem c9_error_handling_witness :
    (generateRefWith c9Gen c9Fs ("out.md") c9Map ["good.md", "missing.md"]).content =
      (generateRefWith c9Gen c9Fs ("out.md") c9Map
        (["good.md", "missing.md"].filter (fun p => (c9Fs p).isSome))).content ∧
    detectDrift (fun s => s) c9Fs none (fun _ => none) [] = .error .fileNotFound ∧
    detectDrift (fun s => s) c9Fs (some "not json") (fun _ => none) [] =
      .error .invalidJson := by
  obtain ⟨h1, h2, h3, _⟩ := c9_error_handling
  exact ⟨h1 c9Fs c9Gen ("out.md") c9Map ["good.md", "missing.md"],
    h2 (fun s => s) c9Fs (fun _ => none) [],
    h3 (fun s => s) c9Fs "not json" (fun _ => none) [] rfl⟩

/-! ## Claim C4: per-document budget allocation -/

/-- C4 counterexample. With two documents of 200 and 100 raw body lines
feeding one artifact with maxLines = 90, the source's per-document budget
is floor(90 / 2) = 45 for both documents — independent of their raw line
counts — whereas the claimed proportional allocation would give about 59
(58 by the exact proportional formula) and about 29. In particular the
code's budget is not roughly 59 for the larger document. -/
theorem c4_counterexample :
    perDocBudget 90 2 = 45 ∧
    specProportionalDocBudget 200 300 88 = 58 ∧
    specProportionalDocBudget 100 300 88 = 29 ∧
    perDocBudget 90 2 ≠ specProportionalDocBudget 200 300 88 ∧
    ¬ (55 ≤ perDocBudget 90 2) := by decide

/-- C4 as amended. When one artifact is assembled from multiple source
documents, each document receives the same budget floor(maxLines/numDocs)
— 45 and 45 in the 200/100-line example with maxLines = 90 — regardless of
raw body line counts; the proportional allocation happens one level down:
inside a document, each section's preliminary budget has a floor of 3
lines and otherwise grows monotonically with the section's raw line count
relative to the document's total. -/
theorem c4_amended :
    perDocBudget 90 2 = 45 ∧
    (∀ (maxLines numDocs : Nat), perDocBudget maxLines numDocs = maxLines / max numDocs 1) ∧
    (∀ (s t : Nat) (B : Int), (3 : Int) ≤ sectionBudget s t B) ∧
    (∀ (s₁ s₂ t : Nat) (B : Int), 2 ≤ B → s₁ ≤ s₂ →
      sectionBudget s₁ t B ≤ sectionBudget s₂ t B) := by
  refine ⟨by decide, fun _ _ => rfl, fun s t B => le_max_left _ _, ?_⟩
  intro s₁ s₂ t B h2 hs
  rw [sectionBudget, sectionBudget]
  apply max_le_max le_rfl
  obtain ⟨k, hk⟩ : ∃ k : Nat, B - 2 = (k : Int) :=
    ⟨(B - 2).toNat, (Int.toNat_of_nonneg (by omega)).symm⟩
  rw [hk]
  have hc1 : (s₁ : Int) * (k : Int) = ((s₁ * k : Nat) : Int) := by push_cast; ring
  have hc2 : (s₂ : Int) * (k : Int) = ((s₂ * k : Nat) : Int) := by push_cast; ring
  rw [hc1, hc2, ← Int.ofNat_fdiv, ← Int.ofNat_fdiv]
  exact_mod_cast Nat.div_le_div_right (Nat.mul_le_mul_right k hs)

theorem c4_amended_witness :
    (3 : Int) ≤ sectionBudget 0 30 45 ∧
    sectionBudget 10 30 45 ≤ sectionBudget 20 30 45 :=
  ⟨c4_amended.2.2.1 0 30 45,
   c4_amended.2.2.2 10 20 30 45 (by decide) (by decide)⟩

/-! ## Claim C7: code-block selection -/

theorem mem_insertByLines {a b : CodeBlock} {l : List CodeBlock} :
    a ∈ insertByLines b l ↔ a = b ∨ a ∈ l := by
  induction l with
  | nil => simp [insertByLines]
  | cons c rest ih =>
    rw [insertByLines]
    split
    · simp
    · simp only [List.mem_cons, ih]
      tauto

/-- The head of the stable sort by recorded line count is a member with
    minimal line count. -/
theorem sortByLines_head_min (l : List CodeBlock) (hne : l ≠ []) :
    ∃ b t, sortByLines l = b :: t ∧ b ∈ l ∧ ∀ c ∈ l, b.lines ≤ c.lines := by
  induction l with
  | nil => exact absurd rfl hne
  | cons x rest ih =>
    rcases rest with _ | ⟨y, rest'⟩
    · exact ⟨x, [], rfl, List.mem_cons_self x [], by
        intro c hc
        rcases List.mem_cons.mp hc with rfl | h
        · exact le_refl _
        · simp at h⟩
    · obtain ⟨b, t, hbt, hbmem, hbmin⟩ := ih (by simp)
      rw [sortByLines, hbt, insertByLines]
      by_cases hxb : x.lines ≤ b.lines
      · rw [if_pos hxb]
        refine ⟨x, b :: t, rfl, List.mem_cons_self x _, ?_⟩
        intro c hc
        rcases List.mem_cons.mp hc with rfl | h
        · exact le_refl _
        · exact le_trans hxb (hbmin c h)
      · rw [if_neg hxb]
        refine ⟨b, insertByLines x t, rfl, List.mem_cons_of_mem x hbmem, ?_⟩
        intro c hc
        rcases List.mem_cons.mp hc with rfl | h
        · omega
        · exact hbmin c h

set_option maxRecDepth 8000 in
/-- C7 counterexample. Two well-formed ts blocks: block A has 16 raw lines
of which 14 survive twoslash cleaning (cleaned count inside [2,15]); block
B has 10 raw lines of which 1 survives (cleaned count outside the window).
The claim's selection by cleaned line count would prefer A, but the source
filters the window over the recorded raw line count, so it selects B. -/
theorem c7_counterexample :
    c7BlockA.lines = countLines c7BlockA.content ∧
    c7BlockB.lines = countLines c7BlockB.content ∧
    c7BlockA.lines = 16 ∧ c7BlockB.lines = 10 ∧
    2 ≤ countLines (cleanTwoslash c7BlockA.content) ∧
    countLines (cleanTwoslash c7BlockA.content) ≤ 15 ∧
    countLines (cleanTwoslash c7BlockB.content) = 1 ∧
    selectBestCodeBlock [c7BlockA, c7BlockB] [] = some c7BlockB := by decide

/-- C7 as amended. The selector considers only code blocks in the target
language; it prefers the shortest block whose recorded raw line count (the
line count of the block as extracted, before twoslash cleaning) lies in the
inclusive window [2,15]; when none qualifies it falls back to the shortest
target-language block of any size; and the chosen block is emitted only
when the code share of the budget exceeds two lines and the cleaned block
fits it, otherwise it is silently omitted. -/
theorem c7_amended (blocks : List CodeBlock) (priorities : List ContentPriority)
    (codeBudget : Nat) :
    (blocks.filter isTsLang = [] ↔ selectBestCodeBlock blocks priorities = none) ∧
    ((∃ c ∈ blocks.filter isTsLang, 2 ≤ c.lines ∧ c.lines ≤ 15) →
      ∃ b, selectBestCodeBlock blocks priorities = some b ∧
        b ∈ blocks.filter isTsLang ∧ 2 ≤ b.lines ∧ b.lines ≤ 15 ∧
        ∀ c ∈ blocks.filter isTsLang, 2 ≤ c.lines → c.lines ≤ 15 →
          b.lines ≤ c.lines) ∧
    ((∀ c ∈ blocks.filter isTsLang, ¬ (2 ≤ c.lines ∧ c.lines ≤ 15)) →
      blocks.filter isTsLang ≠ [] →
      ∃ b, selectBestCodeBlock blocks priorities = some b ∧
        b ∈ blocks.filter isTsLang ∧
        ∀ c ∈ blocks.filter isTsLang, b.lines ≤ c.lines) ∧
    (codePart blocks codeBudget priorities ≠ [] ↔
      (2 < codeBudget ∧ ∃ b, selectBestCodeBlock blocks priorities = some b ∧
        countLines (cleanTwoslash b.content) ≤ codeBudget - 2)) := by
  refine ⟨⟨?_, ?_⟩, ?_, ?_, ?_⟩
  · intro hnil
    simp only [selectBestCodeBlock, hnil]
    rfl
  · intro hnone
    by_contra hne
    obtain ⟨b, t, hms, _, _⟩ := sortByLines_head_min (blocks.filter isTsLang) hne
    have hlen : ¬ (blocks.filter isTsLang).length = 0 := by
      simp [List.length_eq_zero, hne]
    rcases hid : sortByLines ((blocks.filter isTsLang).filter
        (fun b => 2 ≤ b.lines && b.lines ≤ 15)) with _ | ⟨i, it⟩
    · rw [selectBestCodeBlock] at hnone
      simp only [hlen, if_false, hid, hms] at hnone
      simp at hnone
    · rw [selectBestCodeBlock] at hnone
      simp only [hlen, if_false, hid] at hnone
      simp at hnone
  · rintro ⟨c0, hc0mem, hc0lo, hc0hi⟩
    have hc0ideal : c0 ∈ (blocks.filter isTsLang).filter
        (fun b => 2 ≤ b.lines && b.lines ≤ 15) := by
      rw [List.mem_filter]
      exact ⟨hc0mem, by simp [hc0lo, hc0hi]⟩
    have hidne : (blocks.filter isTsLang).filter
        (fun b => 2 ≤ b.lines && b.lines ≤ 15) ≠ [] :=
      fun hnil => by rw [hnil] at hc0ideal; simp at hc0ideal
    obtain ⟨b, t, hms, hbmem, hbmin⟩ := sortByLines_head_min _ hidne
    have hlen : ¬ (blocks.filter isTsLang).length = 0 := by
      rw [List.length_eq_zero]
      intro hnil
      rw [hnil] at hc0mem
      simp at hc0mem
    refine ⟨b, ?_, ?_, ?_, ?_, ?_⟩
    · rw [selectBestCodeBlock]
      simp only [hlen, if_false, hms]
    · exact (List.mem_filter.mp hbmem).1
    · have := (List.mem_filter.mp hbmem).2
      simp at this
      omega
    · have := (List.mem_filter.mp hbmem).2
      simp at this
      omega
    · intro c hcmem hclo hchi
      exact hbmin c (List.mem_filter.mpr ⟨hcmem, by simp [hclo, hchi]⟩)
  · intro hwin hne
    have hid : (blocks.filter isTsLang).filter
        (fun b => 2 ≤ b.lines && b.lines ≤ 15) = [] := by
      rw [List.filter_eq_nil_iff]
      intro c hc
      have := hwin c hc
      simp only [Bool.and_eq_true, decide_eq_true_eq]
      omega
    obtain ⟨b, t, hms, hbmem, hbmin⟩ := sortByLines_head_min (blocks.filter isTsLang) hne
    have hlen : ¬ (blocks.filter isTsLang).length = 0 := by
      simp [List.length_eq_zero, hne]
    refine ⟨b, ?_, hbmem, hbmin⟩
    rw [selectBestCodeBlock]
    simp only [hlen, if_false, hid, sortByLines, hms]
    rfl
  · rw [codePart]
    by_cases hcb : 2 < codeBudget
    · rw [if_pos hcb]
      rcases hsel : selectBestCodeBlock blocks priorities with _ | b
      · simp [hsel]
      · simp only [hsel]
        by_cases hfit : (strLines (cleanTwoslash b.content)).length ≤ codeBudget - 2
        · rw [if_pos hfit]
          simp only [ne_eq, reduceCtorEq]
          constructor
          · intro _
            exact ⟨hcb, b, rfl, hfit⟩
          · intro _
            simp
        · rw [if_neg hfit]
          simp only [ne_eq, not_true_eq_false, false_iff, not_and]
          intro _
          rintro ⟨b', hb', hfit'⟩
          rw [Option.some_inj] at hb'
          subst hb'
          exact hfit hfit'
    · rw [if_neg hcb]
      simp [hcb]

theorem c7_amended_witness :
    ∃ b, selectBestCodeBlock [(⟨"ts", "a\nb\nc", false, 3⟩ : CodeBlock)] [] = some b ∧
      2 ≤ b.lines ∧ b.lines ≤ 15 := by
  obtain ⟨b, hsel, _, hlo, hhi, _⟩ :=
    (c7_amended [(⟨"ts", "a\nb\nc", false, 3⟩ : CodeBlock)] [] 10).2.1
      ⟨⟨"ts", "a\nb\nc", false, 3⟩, by decide, by decide, by decide⟩
  exact ⟨b, hsel, hlo, hhi⟩

/-! ## Claim C6: parent-heading resolution -/

theorem parseHeadingLine_wf {line : String} {l : Nat} {t : String}
    (h : parseHeadingLine line = some (l, t)) : 1 ≤ l ∧ t ≠ "" := by
  rw [parseHeadingLine] at h
  dsimp only at h
  split at h
  · rename_i hn
    split at h
    · exact absurd h (by simp)
    · rename_i c rest' heq
      split at h
      · rename_i hws
        split at h
        · rename_i htext
          obtain ⟨h1, h2⟩ := Prod.ext_iff.mp (Option.some.inj h)
          dsimp only at h1 h2
          refine ⟨h1 ▸ hn.1, ?_⟩
          intro heqt
          rw [← h2] at heqt
          exact htext (by simpa using congrArg String.data heqt)
        · split at h
          · obtain ⟨h1, h2⟩ := Prod.ext_iff.mp (Option.some.inj h)
            dsimp only at h1 h2
            refine ⟨h1 ▸ hn.1, ?_⟩
            intro heqt
            rw [← h2] at heqt
            simpa using congrArg String.data heqt
          · exact absurd h (by simp)
      · exact absurd h (by simp)
  · exact absurd h (by simp)

theorem fphGo_emptyStack : ∀ k, fphGo k emptyStack = "" := by
  intro k
  induction k with
  | zero => rfl
  | succ n ih =>
    rw [fphGo]
    simp only [emptyStack]
    simp [ih]

theorem fphGo_stackStep (k : Nat) (st : Nat → String) (m : Nat) (t : String)
    (hm : 1 ≤ m) (ht : t ≠ "") :
    fphGo k (stackStep st (m, t)) = if m ≤ k then t else fphGo k st := by
  induction k with
  | zero =>
    rw [if_neg (by omega)]
    rfl
  | succ n ih =>
    rw [fphGo, fphGo]
    simp only [stackStep]
    by_cases h1 : n + 1 = m
    · rw [if_pos h1, if_pos (by omega : m ≤ n + 1)]
      simp [ht]
    · rw [if_neg h1]
      by_cases h2 : m < n + 1
      · rw [if_pos h2]
        simp only [ne_eq, not_true_eq_false, if_false]
        rw [ih, if_pos (by omega : m ≤ n), if_pos (by omega : m ≤ n + 1)]
      · rw [if_neg h2, if_neg (by omega : ¬ m ≤ n + 1)]
        by_cases h3 : st (n + 1) ≠ ""
        · rw [if_pos h3, if_pos h3]
        · rw [if_neg h3, if_neg h3, ih, if_neg (by omega : ¬ m ≤ n)]

theorem stackOf_concat (hs : List (Nat × String)) (p : Nat × String) :
    stackOf (hs ++ [p]) = stackStep (stackOf hs) p := by
  rw [stackOf, stackOf, List.foldl_concat]

theorem fphGo_stackOf (hs : List (Nat × String))
    (hwf : ∀ p ∈ hs, 1 ≤ p.1 ∧ p.2 ≠ "") (k : Nat) :
    fphGo k (stackOf hs) =
      ((hs.filter (fun p => p.1 ≤ k)).getLast?.map (fun p => p.2)).getD "" := by
  induction hs using List.reverseRecOn generalizing k with
  | nil => simpa [stackOf] using fphGo_emptyStack k
  | append_singleton hs p ih =>
    obtain ⟨m, t⟩ := p
    have hp := hwf (m, t) (by simp)
    have hwf' : ∀ q ∈ hs, 1 ≤ q.1 ∧ q.2 ≠ "" := fun q hq => hwf q (by simp [hq])
    rw [stackOf_concat, fphGo_stackStep k _ m t hp.1 hp.2, List.filter_append]
    by_cases hmk : m ≤ k
    · rw [if_pos hmk]
      simp [hmk]
    · rw [if_neg hmk, ih hwf']
      simp [hmk]

theorem findParent_lastShallower (hs : List (Nat × String))
    (hwf : ∀ p ∈ hs, 1 ≤ p.1 ∧ p.2 ≠ "") (L : Nat) :
    findParentHeading L (stackOf hs) = lastShallowerHeading hs L := by
  rw [findParentHeading, fphGo_stackOf hs hwf (L - 1), lastShallowerHeading]
  have hfeq : hs.filter (fun p => p.1 ≤ L - 1) = hs.filter (fun p => p.1 < L) :=
    List.filter_congr (fun x hx => by
      have := (hwf x hx).1
      simp only [decide_eq_decide]
      omega)
  rw [hfeq]

theorem lastShallower_append_self (hs : List (Nat × String)) (l : Nat) (t : String) :
    lastShallowerHeading (hs ++ [(l, t)]) l = lastShallowerHeading hs l := by
  rw [lastShallowerHeading, lastShallowerHeading, List.filter_append]
  simp

theorem flushSection_proj (h : String) (L : Nat) (st : Nat → String) (ls : List String) :
    (flushSection h L st ls).map (fun s => (s.heading, s.level, s.parentHeading)) =
      if ls ≠ [] ∨ h ≠ "" then [(h, L, findParentHeading L st)] else [] := by
  rw [flushSection]
  split
  · rfl
  · rfl

/-- The line scan of `splitIntoSections`, started after the headings `hs0`
    with pending section `(h, L, ls)`, produces exactly the triples the
    specification assigns: the pending flush (whose parent is the nearest
    earlier strictly-shallower heading among `hs0`) followed by one section
    per further heading, each with the nearest earlier strictly-shallower
    heading as its parent. -/
theorem sectionScan_proj (lines : List String) :
    ∀ (hs0 : List (Nat × String)) (h : String) (L : Nat) (ls : List String),
      (∀ p ∈ hs0, 1 ≤ p.1 ∧ p.2 ≠ "") →
      (sectionScan h L ls (stackOf hs0) lines).map
          (fun s => (s.heading, s.level, s.parentHeading)) =
        (if ls ++ lines.takeWhile (fun l => (parseHeadingLine l).isNone) ≠ [] ∨ h ≠ ""
         then [(h, L, lastShallowerHeading hs0 L)] else [])
          ++ specTriples hs0 (lines.filterMap parseHeadingLine) := by
  induction lines with
  | nil =>
    intro hs0 h L ls hwf
    show (flushSection h L (stackOf hs0) ls).map _ = _
    rw [flushSection_proj, findParent_lastShallower hs0 hwf L]
    simp [specTriples]
  | cons line rest ih =>
    intro hs0 h L ls hwf
    rcases hparse : parseHeadingLine line with _ | ⟨l, t⟩
    · simp only [sectionScan, hparse]
      rw [ih hs0 h L (ls ++ [line]) hwf]
      have htw : (line :: rest).takeWhile (fun l => (parseHeadingLine l).isNone) =
          line :: rest.takeWhile (fun l => (parseHeadingLine l).isNone) := by
        simp [List.takeWhile_cons, hparse]
      have hfm : (line :: rest).filterMap parseHeadingLine =
          rest.filterMap parseHeadingLine := by
        simp [List.filterMap_cons, hparse]
      rw [htw, hfm]
      rw [if_pos (Or.inl (by simp)), if_pos (Or.inl (by simp))]
    · simp only [sectionScan, hparse]
      rw [List.map_append, flushSection_proj, findParent_lastShallower hs0 hwf L]
      have hwfp := parseHeadingLine_wf hparse
      have hwf' : ∀ p ∈ hs0 ++ [(l, t)], 1 ≤ p.1 ∧ p.2 ≠ "" := by
        intro p hp
        rcases List.mem_append.mp hp with hp | hp
        · exact hwf p hp
        · simp at hp
          subst hp
          exact hwfp
      rw [← stackOf_concat hs0 (l, t), ih (hs0 ++ [(l, t)]) t l [] hwf']
      rw [if_pos (Or.inr hwfp.2), lastShallower_append_self]
      have htw : (line :: rest).takeWhile (fun l => (parseHeadingLine l).isNone) = [] := by
        simp [List.takeWhile_cons, hparse]
      have hfm : (line :: rest).filterMap parseHeadingLine =
          (l, t) :: rest.filterMap parseHeadingLine := by
        simp [List.filterMap_cons, hparse]
      rw [htw, hfm, specTriples]
      simp

set_option maxRecDepth 8000 in
/-- C6. For every markdown input, each extracted section's parentHeading is
the nearest earlier heading at a strictly shallower level (which is never
superseded by an intervening heading at or above its own level); in
particular, for headings H1 A, H2 B, H3 C, H2 D, H3 E in order, section C
has parent B and section E has parent D, not B. -/
theorem c6_parent_heading :
    (∀ content : String,
      (splitIntoSections content).map (fun s => (s.heading, s.level, s.parentHeading)) =
        (if (strLines content).takeWhile (fun l => (parseHeadingLine l).isNone) ≠ []
         then [("", 0, "")] else [])
          ++ specTriples [] ((strLines content).filterMap parseHeadingLine)) ∧
    (splitIntoSections c6Example).map (fun s => (s.heading, s.level, s.parentHeading)) =
      [("A", 1, ""), ("B", 2, "A"), ("C", 3, "B"), ("D", 2, "A"), ("E", 3, "D")] := by
  constructor
  · intro content
    have h := sectionScan_proj (strLines content) [] "" 0 []
      (by intro p hp; simp at hp)
    rw [splitIntoSections]
    rw [show emptyStack = stackOf [] from rfl, h]
    have hls : lastShallowerHeading [] 0 = "" := rfl
    simp [hls]
  · decide

end TsSkill
